import Mathlib

/-!
Verification of the S² active-learning algorithm (`s2.py`).

The source file defines four Python functions over `networkx` graphs:

  * `s2(G, oracle, shortest_path)`  — the active query loop;
  * `find_obvious_cuts(G, L=None)`  — cut inference;
  * `find_mssp(G, L, shortest_path)` — midpoint of the shortest shortest path;
  * `find_ssp(G, L, shortest_path)`  — shortest shortest path search.

We embed these shallowly: a graph is a vertex list, an edge list and an
association list of label attributes; the oracle, the shortest-path
collaborator and the random vertex choice are explicit function parameters
(`random.choice(G.nodes())` becomes an index stream `pick : Nat → Nat`,
applied to the reseed counter and reduced mod the node count).  The
`while` loops of `s2` become fuel-indexed recursions returning `Option`
(`none` = fuel exhausted).  The `nx.NetworkXNoPath` exception raised by the
shortest-path collaborator is embedded as an `Option` result (`none` = the
exception).  The final state is instrumented with ghost fields: the total
number of oracle calls (`queries`) and the accumulated list of removed
edges (`removed`); neither influences control flow.
-/

namespace S2

/-- Vertices are embedded as natural numbers. -/
abbrev Vert := Nat

/-- Shallow embedding of the `networkx` graph as `s2.py` uses it:
a node list, an undirected edge list (each edge stored once, in either
orientation), and the per-node `label` attributes as an association list
(the most recent binding of a vertex wins, matching dict assignment). -/
structure PyGraph where
  nodes : List Vert
  edges : List (Vert × Vert)
  labels : List (Vert × Bool)
deriving DecidableEq, Repr

/-- Reading `G.node[v].get('label')`: the current label attribute of `v`. -/
def labelAt (G : PyGraph) (v : Vert) : Option Bool :=
  G.labels.lookup v

/-- Embedding of `G.node[vert]['label'] = y` (line 53 of `s2.py`). -/
def setLabel (G : PyGraph) (v : Vert) (y : Bool) : PyGraph :=
  { G with labels := (v, y) :: G.labels }

/-- Undirected edge equality: `networkx` treats `(u, v)` and `(v, u)` as the
same edge, so removal matches either orientation. -/
def sameEdge (e c : Vert × Vert) : Bool :=
  (e.1 == c.1 && e.2 == c.2) || (e.1 == c.2 && e.2 == c.1)

/-- Embedding of `G.remove_edges_from(cuts)` (line 58 of `s2.py`). -/
def removeEdges (G : PyGraph) (cuts : List (Vert × Vert)) : PyGraph :=
  { G with edges := G.edges.filter (fun e => !(cuts.any (fun c => sameEdge e c))) }

/-- Embedding of `find_obvious_cuts(G, L=None)` (lines 69–98 of `s2.py`).
With `L = none` the labeled nodes are scanned from the graph's label
attributes (`G.nodes_iter(data=True)`); with an explicit `L` they are read
off the labeled set.  `G.subgraph(labeled_nodes).edges_iter()` is the edge
list restricted to edges with both endpoints among the labeled nodes, and
the final filter keeps the edges whose endpoint label attributes differ. -/
def find_obvious_cuts (G : PyGraph) (L : Option (List (Vert × Bool))) : List (Vert × Vert) :=
  let labeled_nodes :=
    match L with
    | none => G.nodes.filter (fun v => (labelAt G v).isSome)
    | some l => l.map Prod.fst
  let sub_edges :=
    G.edges.filter (fun e => labeled_nodes.contains e.1 && labeled_nodes.contains e.2)
  sub_edges.filter (fun e => labelAt G e.1 != labelAt G e.2)

/-- The order `itertools.combinations(l, r=2)` enumerates pairs in. -/
def combinations2 : List Vert → List (Vert × Vert)
  | [] => []
  | x :: xs => xs.map (fun y => (x, y)) ++ combinations2 xs

/-- The shortest-path collaborator: `none` embeds the `nx.NetworkXNoPath`
exception that `find_ssp` catches. -/
abbrev SPFun := PyGraph → Vert → Vert → Option (List Vert)

/-- The `paths` list built by the loop of `find_ssp` (lines 109–120 of
`s2.py`): for every combination of two labeled vertices, in enumeration
order, if their label attributes differ ask the shortest-path collaborator
and keep the result unless it signals "no path". -/
def sspPaths (G : PyGraph) (L : List (Vert × Bool)) (shortest_path : SPFun) :
    List (List Vert) :=
  (combinations2 (L.map Prod.fst)).filterMap (fun uv =>
    if labelAt G uv.1 != labelAt G uv.2 then shortest_path G uv.1 uv.2 else none)

/-- Python's `min(paths, key=lambda path: len(path))` on a nonempty list:
scan left to right, replace the current minimum only on a strictly shorter
candidate, so the first path of minimal length wins. -/
def pyMinLen (p : List Vert) (ps : List (List Vert)) : List Vert :=
  ps.foldl (fun acc q => if q.length < acc.length then q else acc) p

/-- Embedding of `find_ssp(G, L, shortest_path)` (lines 107–128 of `s2.py`). -/
def find_ssp (G : PyGraph) (L : List (Vert × Bool)) (shortest_path : SPFun) :
    Option (List Vert) :=
  match sspPaths G L shortest_path with
  | [] => none
  | p :: ps => some (pyMinLen p ps)

/-- Embedding of `find_mssp(G, L, shortest_path)` (lines 100–105 of `s2.py`):
`ssp[len(ssp)//2]`, or `None` when no path was found. -/
def find_mssp (G : PyGraph) (L : List (Vert × Bool)) (shortest_path : SPFun) :
    Option Vert :=
  match find_ssp G L shortest_path with
  | none => none
  | some ssp => ssp.get? (ssp.length / 2)

/-- State of one `s2` run: the working graph `G` and the labeled set `L`
of the source, plus ghost instrumentation — `queries` counts oracle calls,
`removed` accumulates every edge passed to `remove_edges_from`, and
`seeds` counts outer-loop reseeds (it indexes the random stream). -/
structure S2State where
  G : PyGraph
  L : List (Vert × Bool)
  queries : Nat
  removed : List (Vert × Vert)
  seeds : Nat
deriving DecidableEq, Repr

/-- The body of the inner loop of `s2` (lines 47–58 of `s2.py`): query the
oracle, append to the labeled set, tag the vertex's label attribute, find
the obvious cuts and remove them. -/
def innerStep (oracle : Vert → Bool) (st : S2State) (vert : Vert) : S2State :=
  let y := oracle vert
  let L := st.L ++ [(vert, y)]
  let G := setLabel st.G vert y
  let cuts := find_obvious_cuts G (some L)
  { G := removeEdges G cuts
    L := L
    queries := st.queries + 1
    removed := st.removed ++ cuts
    seeds := st.seeds }

/-- The inner `while True` loop of `s2` (lines 47–65): run the step, then
pick the next target via `find_mssp`; `None` breaks out to the outer loop.
Fuel-indexed; `none` means the fuel ran out. -/
def innerLoop (oracle : Vert → Bool) (sp : SPFun) :
    Nat → S2State → Vert → Option S2State
  | 0, _, _ => none
  | fuel + 1, st, vert =>
    match find_mssp (innerStep oracle st vert).G (innerStep oracle st vert).L sp with
    | none => some (innerStep oracle st vert)
    | some v => innerLoop oracle sp fuel (innerStep oracle st vert) v

/-- Embedding of `vert = random.choice(G.nodes())` (line 45): the stream `pick`
is sampled at the current reseed counter and indexes the node list. -/
def seedVert (st : S2State) (pick : Nat → Nat) : Vert :=
  st.G.nodes.getD (pick st.seeds % st.G.nodes.length) 0

/-- Bump the reseed counter (ghost bookkeeping for the random stream). -/
def seedStep (st : S2State) : S2State :=
  { st with seeds := st.seeds + 1 }

/-- The outer `while True` loop of `s2` (lines 40–65): exit when the
labeled set has length `n`, otherwise reseed at a random vertex and run
the inner loop. -/
def outerLoop (oracle : Vert → Bool) (sp : SPFun) (pick : Nat → Nat) (n : Nat) :
    Nat → S2State → Option S2State
  | 0, _ => none
  | fuel + 1, st =>
    if st.L.length = n then some st
    else
      match innerLoop oracle sp fuel (seedStep st) (seedVert st pick) with
      | none => none
      | some st' => outerLoop oracle sp pick n fuel st'

/-- Embedding of `s2(G, oracle, shortest_path)` (lines 18–67 of `s2.py`).  Line 32
(`G = G.copy()`) makes the loop run on a private copy; in this pure
embedding the copy is the value itself (object identity is modelled
separately by `s2Store` below).  `n = G.order()` is the node count. -/
def s2 (oracle : Vert → Bool) (sp : SPFun) (pick : Nat → Nat) (fuel : Nat)
    (G0 : PyGraph) : Option S2State :=
  outerLoop oracle sp pick G0.nodes.length fuel
    { G := G0, L := [], queries := 0, removed := [], seeds := 0 }

/-! ### Store-level view of `s2`

To state that `s2` never mutates the caller-owned input graph we model
Python object identity explicitly: a store is a list of graph objects and
variables hold indices into it.  `G = G.copy()` (line 32) allocates a new
object at the end of the store; every subsequent mutation
(`G.node[vert]['label'] = y`, `G.remove_edges_from(cuts)`) is a store
write at that working index only. -/

/-- The body of the inner loop of `s2`, acting on a store: both mutations
of the working graph (label tagging, edge removal) are explicit writes at
index `wref`. -/
def innerStepStore (oracle : Vert → Bool) (store : List PyGraph) (wref : Nat)
    (L : List (Vert × Bool)) (vert : Vert) :
    List PyGraph × List (Vert × Bool) :=
  let y := oracle vert
  let L' := L ++ [(vert, y)]
  let store1 := store.set wref (setLabel (store.getD wref ⟨[], [], []⟩) vert y)
  let cuts := find_obvious_cuts (store1.getD wref ⟨[], [], []⟩) (some L')
  (store1.set wref (removeEdges (store1.getD wref ⟨[], [], []⟩) cuts), L')

/-- The inner loop of `s2`, acting on a store. -/
def innerLoopStore (oracle : Vert → Bool) (sp : SPFun) :
    Nat → List PyGraph → Nat → List (Vert × Bool) → Vert →
      Option (List PyGraph × List (Vert × Bool))
  | 0, _, _, _, _ => none
  | fuel + 1, store, wref, L, vert =>
    match find_mssp
        ((innerStepStore oracle store wref L vert).1.getD wref ⟨[], [], []⟩)
        (innerStepStore oracle store wref L vert).2 sp with
    | none => some (innerStepStore oracle store wref L vert)
    | some v =>
      innerLoopStore oracle sp fuel (innerStepStore oracle store wref L vert).1 wref
        (innerStepStore oracle store wref L vert).2 v

/-- The outer loop of `s2`, acting on a store. -/
def outerLoopStore (oracle : Vert → Bool) (sp : SPFun) (pick : Nat → Nat) (n : Nat) :
    Nat → List PyGraph → Nat → List (Vert × Bool) → Nat →
      Option (List PyGraph × List (Vert × Bool))
  | 0, _, _, _, _ => none
  | fuel + 1, store, wref, L, seeds =>
    if L.length = n then some (store, L)
    else
      let g := store.getD wref ⟨[], [], []⟩
      let vert := g.nodes.getD (pick seeds % g.nodes.length) 0
      match innerLoopStore oracle sp fuel store wref L vert with
      | none => none
      | some (store', L') => outerLoopStore oracle sp pick n fuel store' wref L' (seeds + 1)

/-- The function `s2` at the store level: the caller's graph lives at index `gref`;
line 32 (`G = G.copy()`) allocates the working copy as a fresh object at
index `store.length`, and the loops only ever write that index.  Returns
the final store (unchanged if the fuel ran out) with the labeled set. -/
def s2Store (oracle : Vert → Bool) (sp : SPFun) (pick : Nat → Nat) (fuel : Nat)
    (store : List PyGraph) (gref : Nat) :
    List PyGraph × Option (List (Vert × Bool)) :=
  match outerLoopStore oracle sp pick
      (store.getD gref ⟨[], [], []⟩).nodes.length fuel
      (store ++ [store.getD gref ⟨[], [], []⟩]) store.length [] 0 with
  | none => (store ++ [store.getD gref ⟨[], [], []⟩], none)
  | some (store', L) => (store', some L)

/-! ### Invariants of the query loop -/

/-- Labels written into the working graph always come from the oracle, every
labeled-set vertex carries a label attribute, and every removed edge joins
two attributed vertices whose oracle labels differ. -/
def OracleSound (oracle : Vert → Bool) (st : S2State) : Prop :=
  (∀ v b, labelAt st.G v = some b → b = oracle v) ∧
  (∀ p ∈ st.L, (labelAt st.G p.1).isSome) ∧
  (∀ e ∈ st.removed,
    (labelAt st.G e.1).isSome ∧ (labelAt st.G e.2).isSome ∧ oracle e.1 ≠ oracle e.2)

/-- The labeled set and the working graph's label attributes agree: every
`(v, y)` in the labeled set has attribute `y` on `v`, every attributed
vertex occurs in the labeled set, and all attributes come from the oracle. -/
def LabelsConsistent (oracle : Vert → Bool) (st : S2State) : Prop :=
  (∀ v b, labelAt st.G v = some b → b = oracle v) ∧
  (∀ p ∈ st.L, labelAt st.G p.1 = some p.2) ∧
  (∀ v, (labelAt st.G v).isSome → v ∈ st.L.map Prod.fst)

/-- The working graph keeps the input's vertex list, and its edges are
exactly the input's edges minus the accumulated removals. -/
def EdgesShrinkOnly (G0 : PyGraph) (st : S2State) : Prop :=
  st.G.nodes = G0.nodes ∧
  ∀ e, e ∈ st.G.edges ↔ (e ∈ G0.edges ∧ st.removed.any (fun c => sameEdge e c) = false)

/-! ### Concrete instances used by counterexamples and witnesses -/

/-- A two-vertex edgeless graph with no labels. -/
def cexG : PyGraph := ⟨[0, 1], [], []⟩

/-- A run of `s2` on `cexG` whose random stream always picks index 0: the
reseed at line 45 draws from the full node list, so vertex 0 is chosen
again after it is already labeled. -/
def cexRun : Option S2State :=
  s2 (fun _ => true) (fun _ _ _ => none) (fun _ => 0) 10 cexG

/-- The final state of `cexRun` (computed by evaluation): the labeled set
holds vertex 0 twice and vertex 1 never. -/
def cexSt : S2State :=
  { G := ⟨[0, 1], [], [(0, true), (0, true)]⟩
    L := [(0, true), (0, true)]
    queries := 2
    removed := []
    seeds := 2 }

/-- A two-vertex graph with the single edge `(0, 1)` and no labels. -/
def wG2 : PyGraph := ⟨[0, 1], [(0, 1)], []⟩

/-- A run of `s2` on `wG2` with a discordant oracle and a fresh vertex at
every reseed: both vertices get queried and the edge is cut. -/
def w2Run : Option S2State :=
  s2 (fun v => v == 0) (fun _ _ _ => none) (fun k => k) 10 wG2

/-- The final state of `w2Run` (computed by evaluation). -/
def w2St : S2State :=
  { G := ⟨[0, 1], [], [(1, false), (0, true)]⟩
    L := [(0, true), (1, false)]
    queries := 2
    removed := [(0, 1)]
    seeds := 2 }

/-- Graph `wG2` after both endpoints have been labeled discordantly. -/
def w3G : PyGraph := ⟨[0, 1], [(0, 1)], [(0, true), (1, false)]⟩

/-- The labeled set matching the label attributes of `w3G`. -/
def w3L : List (Vert × Bool) := [(0, true), (1, false)]

/-- A shortest-path collaborator that always signals "no path". -/
def spNone : SPFun := fun _ _ _ => none

/-- A two-vertex graph, no edges, labeled discordantly. -/
def w6G : PyGraph := ⟨[0, 1], [], [(0, true), (1, false)]⟩

/-- A collaborator producing a fixed five-vertex path. -/
def sp5 : SPFun := fun _ _ _ => some [10, 11, 12, 13, 14]

/-- Four labeled vertices; `5` is concordant with `0` and never paired. -/
def w7G : PyGraph :=
  ⟨[0, 1, 2, 5], [], [(0, true), (1, false), (2, false), (5, true)]⟩

/-- Labeled set for the tie-break witness: pairs are enumerated in the
order `(0,1), (0,2), (1,2)`; only the first two are discordant. -/
def w7L : List (Vert × Bool) := [(0, true), (1, false), (2, false)]

/-- Collaborator for the tie-break witness: the pair `(0,1)` yields a
three-vertex path, the pair `(0,2)` a strictly shorter two-vertex path. -/
def sp7 : SPFun := fun _ u v =>
  if u == 0 && v == 1 then some [0, 5, 1]
  else if u == 0 && v == 2 then some [0, 2] else none

/-! ### Basic lemmas about the graph operations -/

theorem labelAt_setLabel (G : PyGraph) (v : Vert) (y : Bool) (w : Vert) :
    labelAt (setLabel G v y) w = if w = v then some y else labelAt G w := by
  by_cases h : w = v
  · simp [labelAt, setLabel, List.lookup_cons, h]
  · have hb : (w == v) = false := by simp [h]
    simp [labelAt, setLabel, List.lookup_cons, hb, h]

theorem labelAt_removeEdges (G : PyGraph) (c : List (Vert × Vert)) (v : Vert) :
    labelAt (removeEdges G c) v = labelAt G v := rfl

theorem nodes_removeEdges (G : PyGraph) (c : List (Vert × Vert)) :
    (removeEdges G c).nodes = G.nodes := rfl

theorem nodes_setLabel (G : PyGraph) (v : Vert) (y : Bool) :
    (setLabel G v y).nodes = G.nodes := rfl

theorem edges_setLabel (G : PyGraph) (v : Vert) (y : Bool) :
    (setLabel G v y).edges = G.edges := rfl

theorem mem_removeEdges (G : PyGraph) (c : List (Vert × Vert)) (e : Vert × Vert) :
    e ∈ (removeEdges G c).edges ↔ e ∈ G.edges ∧ c.any (fun x => sameEdge e x) = false := by
  simp [removeEdges, List.mem_filter]

theorem mem_find_obvious_cuts (G : PyGraph) (L : List (Vert × Bool)) (e : Vert × Vert) :
    e ∈ find_obvious_cuts G (some L) ↔
      e ∈ G.edges ∧ e.1 ∈ L.map Prod.fst ∧ e.2 ∈ L.map Prod.fst ∧
        labelAt G e.1 ≠ labelAt G e.2 := by
  simp only [find_obvious_cuts, List.mem_filter, Bool.and_eq_true, List.elem_iff,
    bne_iff_ne, ne_eq]
  tauto

/-! ### Shape lemmas for the loop step -/

theorem innerStep_L (oracle : Vert → Bool) (st : S2State) (v : Vert) :
    (innerStep oracle st v).L = st.L ++ [(v, oracle v)] := rfl

theorem innerStep_queries (oracle : Vert → Bool) (st : S2State) (v : Vert) :
    (innerStep oracle st v).queries = st.queries + 1 := rfl

theorem innerStep_G (oracle : Vert → Bool) (st : S2State) (v : Vert) :
    (innerStep oracle st v).G =
      removeEdges (setLabel st.G v (oracle v))
        (find_obvious_cuts (setLabel st.G v (oracle v))
          (some (st.L ++ [(v, oracle v)]))) := rfl

theorem innerStep_removed (oracle : Vert → Bool) (st : S2State) (v : Vert) :
    (innerStep oracle st v).removed =
      st.removed ++
        find_obvious_cuts (setLabel st.G v (oracle v))
          (some (st.L ++ [(v, oracle v)])) := rfl

/-! ### Generic preservation along the loops -/

theorem innerLoop_pres (P : S2State → Prop) (oracle : Vert → Bool) (sp : SPFun)
    (hstep : ∀ st v, P st → P (innerStep oracle st v)) :
    ∀ fuel st vert st', innerLoop oracle sp fuel st vert = some st' → P st → P st' := by
  intro fuel
  induction fuel with
  | zero => intro st vert st' h; simp [innerLoop] at h
  | succ k ih =>
    intro st vert st' h hP
    simp only [innerLoop] at h
    rcases hm : find_mssp (innerStep oracle st vert).G (innerStep oracle st vert).L sp with
      _ | v <;> rw [hm] at h
    · cases h
      exact hstep st vert hP
    · exact ih _ _ _ h (hstep st vert hP)

theorem outerLoop_pres (P : S2State → Prop) (oracle : Vert → Bool) (sp : SPFun)
    (pick : Nat → Nat) (n : Nat)
    (hstep : ∀ st v, P st → P (innerStep oracle st v))
    (hseed : ∀ st, P st → P (seedStep st)) :
    ∀ fuel st st', outerLoop oracle sp pick n fuel st = some st' → P st → P st' := by
  intro fuel
  induction fuel with
  | zero => intro st st' h; simp [outerLoop] at h
  | succ k ih =>
    intro st st' h hP
    simp only [outerLoop] at h
    by_cases hn : st.L.length = n
    · rw [if_pos hn] at h
      cases h
      exact hP
    · rw [if_neg hn] at h
      rcases hi : innerLoop oracle sp k (seedStep st) (seedVert st pick) with _ | st1 <;>
        rw [hi] at h
      · cases h
      · exact ih _ _ h (innerLoop_pres P oracle sp hstep k _ _ _ hi (hseed st hP))

theorem outerLoop_len (oracle : Vert → Bool) (sp : SPFun) (pick : Nat → Nat) (n : Nat) :
    ∀ fuel st st', outerLoop oracle sp pick n fuel st = some st' → st'.L.length = n := by
  intro fuel
  induction fuel with
  | zero => intro st st' h; simp [outerLoop] at h
  | succ k ih =>
    intro st st' h
    simp only [outerLoop] at h
    by_cases hn : st.L.length = n
    · rw [if_pos hn] at h
      cases h
      exact hn
    · rw [if_neg hn] at h
      rcases hi : innerLoop oracle sp k (seedStep st) (seedVert st pick) with _ | st1 <;>
        rw [hi] at h
      · cases h
      · exact ih _ _ h

/-! ### Preservation of the run invariants by one query step -/

theorem labelAt_innerStep (oracle : Vert → Bool) (st : S2State) (v w : Vert) :
    labelAt (innerStep oracle st v).G w =
      if w = v then some (oracle v) else labelAt st.G w := by
  rw [innerStep_G, labelAt_removeEdges, labelAt_setLabel]

theorem oracleSound_innerStep (oracle : Vert → Bool) (st : S2State) (v : Vert)
    (h : OracleSound oracle st) : OracleSound oracle (innerStep oracle st v) := by
  obtain ⟨h1, h2, h3⟩ := h
  have h1' : ∀ w b, labelAt (innerStep oracle st v).G w = some b → b = oracle w := by
    intro w b hb
    rw [labelAt_innerStep] at hb
    by_cases hw : w = v
    · rw [if_pos hw] at hb
      cases hb
      rw [hw]
    · rw [if_neg hw] at hb
      exact h1 w b hb
  have h2' : ∀ p ∈ (innerStep oracle st v).L,
      (labelAt (innerStep oracle st v).G p.1).isSome := by
    intro p hp
    rw [innerStep_L] at hp
    rw [labelAt_innerStep]
    by_cases hw : p.1 = v
    · rw [if_pos hw]
      rfl
    · rw [if_neg hw]
      rcases List.mem_append.mp hp with hp | hp
      · exact h2 p hp
      · rw [List.mem_singleton] at hp
        rw [hp] at hw
        simp at hw
  refine ⟨h1', h2', ?_⟩
  intro e he
  rw [innerStep_removed] at he
  have hsame : ∀ w, labelAt (setLabel st.G v (oracle v)) w =
      labelAt (innerStep oracle st v).G w := by
    intro w
    rw [innerStep_G, labelAt_removeEdges]
  rcases List.mem_append.mp he with he | he
  · obtain ⟨ha, hb, hc⟩ := h3 e he
    refine ⟨?_, ?_, hc⟩ <;> rw [labelAt_innerStep] <;> split <;> first | rfl | assumption
  · rw [mem_find_obvious_cuts] at he
    obtain ⟨_, he1, he2, hne⟩ := he
    obtain ⟨p1, hp1, hp1e⟩ := List.mem_map.mp he1
    obtain ⟨p2, hp2, hp2e⟩ := List.mem_map.mp he2
    have hs1 : (labelAt (innerStep oracle st v).G e.1).isSome := by
      rw [← hp1e]
      exact h2' p1 (by rw [innerStep_L]; exact hp1)
    have hs2 : (labelAt (innerStep oracle st v).G e.2).isSome := by
      rw [← hp2e]
      exact h2' p2 (by rw [innerStep_L]; exact hp2)
    refine ⟨hs1, hs2, ?_⟩
    obtain ⟨b1, hb1⟩ := Option.isSome_iff_exists.mp hs1
    obtain ⟨b2, hb2⟩ := Option.isSome_iff_exists.mp hs2
    have e1 : b1 = oracle e.1 := h1' e.1 b1 hb1
    have e2 : b2 = oracle e.2 := h1' e.2 b2 hb2
    intro hor
    apply hne
    rw [hsame e.1, hsame e.2, hb1, hb2, e1, e2, hor]

theorem labelsConsistent_innerStep (oracle : Vert → Bool) (st : S2State) (v : Vert)
    (h : LabelsConsistent oracle st) : LabelsConsistent oracle (innerStep oracle st v) := by
  obtain ⟨h1, h2, h3⟩ := h
  refine ⟨?_, ?_, ?_⟩
  · intro w b hb
    rw [labelAt_innerStep] at hb
    by_cases hw : w = v
    · rw [if_pos hw] at hb
      cases hb
      rw [hw]
    · rw [if_neg hw] at hb
      exact h1 w b hb
  · intro p hp
    rw [innerStep_L] at hp
    rw [labelAt_innerStep]
    rcases List.mem_append.mp hp with hp | hp
    · by_cases hw : p.1 = v
      · rw [if_pos hw]
        have := h2 p hp
        have hp2 : p.2 = oracle p.1 := h1 p.1 p.2 this
        rw [hp2, hw]
      · rw [if_neg hw]
        exact h2 p hp
    · rw [List.mem_singleton] at hp
      rw [hp]
      simp
  · intro w hw
    rw [labelAt_innerStep] at hw
    rw [innerStep_L, List.map_append]
    by_cases hv : w = v
    · apply List.mem_append.mpr
      right
      rw [hv]
      simp
    · rw [if_neg hv] at hw
      exact List.mem_append.mpr (Or.inl (h3 w hw))

theorem edgesShrinkOnly_innerStep (G0 : PyGraph) (oracle : Vert → Bool)
    (st : S2State) (v : Vert) (h : EdgesShrinkOnly G0 st) :
    EdgesShrinkOnly G0 (innerStep oracle st v) := by
  obtain ⟨hn, he⟩ := h
  constructor
  · rw [innerStep_G, nodes_removeEdges, nodes_setLabel]
    exact hn
  · intro e
    rw [innerStep_G, mem_removeEdges, edges_setLabel, innerStep_removed,
      List.any_append, he e, Bool.or_eq_false_iff]
    tauto

/-! ### Claim C1 -/

/-- C1 counterexample: on the two-vertex edgeless graph, with the random
stream always drawing index 0, `s2` terminates (the labeled set reaches
length 2 = vertex count) but vertex 0 is queried twice and vertex 1 is
never queried — refuting "exactly one oracle query per vertex". -/
theorem s2_query_once_cex :
    cexRun.map (fun st =>
      ((st.L.filter (fun p => p.1 == 0)).length,
        (st.L.filter (fun p => p.1 == 1)).length,
        st.queries)) = some (2, 0, 2) := by
  rfl

/-- C1 (amended): whenever `s2` terminates, the number of oracle queries
it issued equals the length of the labeled set, which equals the number
of vertices of the input graph.  (Per-vertex "exactly once" fails: a
reseed may redraw an already labeled vertex, see `s2_query_once_cex`.) -/
theorem s2_terminating_query_count (oracle : Vert → Bool) (sp : SPFun)
    (pick : Nat → Nat) (fuel : Nat) (G0 : PyGraph) (st : S2State)
    (h : s2 oracle sp pick fuel G0 = some st) :
    st.queries = st.L.length ∧ st.L.length = G0.nodes.length := by
  constructor
  · exact outerLoop_pres (fun s => s.queries = s.L.length) oracle sp pick
      G0.nodes.length
      (fun s v hP => by simp [innerStep_queries, innerStep_L, hP])
      (fun s hP => hP) fuel _ st h rfl
  · exact outerLoop_len oracle sp pick G0.nodes.length fuel _ st h

/-- Witness for `s2_terminating_query_count` at the concrete run `cexRun`. -/
theorem s2_terminating_query_count_witness :
    s2 (fun _ => true) (fun _ _ _ => none) (fun _ => 0) 10 cexG = some cexSt ∧
      cexSt.queries = cexSt.L.length ∧ cexSt.L.length = cexG.nodes.length :=
  ⟨rfl, s2_terminating_query_count (fun _ => true) (fun _ _ _ => none)
    (fun _ => 0) 10 cexG cexSt rfl⟩

/-! ### Claim C2 -/

/-- C2: on every terminating run of `s2` from an unlabeled input graph,
every edge the run removed joins two vertices that are labeled in the
returned graph and whose recorded labels differ. -/
theorem s2_removed_edges_discordant (oracle : Vert → Bool) (sp : SPFun)
    (pick : Nat → Nat) (fuel : Nat) (G0 : PyGraph) (st : S2State)
    (h0 : G0.labels = [])
    (h : s2 oracle sp pick fuel G0 = some st) :
    ∀ e ∈ st.removed, labelAt st.G e.1 ≠ labelAt st.G e.2 ∧
      (labelAt st.G e.1).isSome ∧ (labelAt st.G e.2).isSome := by
  have hsound : OracleSound oracle st := by
    apply outerLoop_pres (OracleSound oracle) oracle sp pick G0.nodes.length
      (oracleSound_innerStep oracle) (fun s hs => hs) fuel _ st h
    refine ⟨?_, ?_, ?_⟩
    · intro v b hb
      rw [show labelAt G0 v = none from by simp [labelAt, h0]] at hb
      cases hb
    · intro p hp
      cases hp
    · intro e he
      cases he
  obtain ⟨h1, _, h3⟩ := hsound
  intro e he
  obtain ⟨ha, hb, hc⟩ := h3 e he
  refine ⟨?_, ha, hb⟩
  obtain ⟨b1, hb1⟩ := Option.isSome_iff_exists.mp ha
  obtain ⟨b2, hb2⟩ := Option.isSome_iff_exists.mp hb
  have e1 : b1 = oracle e.1 := h1 e.1 b1 hb1
  have e2 : b2 = oracle e.2 := h1 e.2 b2 hb2
  rw [hb1, hb2]
  intro hEq
  injection hEq with hbb
  rw [e1, e2] at hbb
  exact hc hbb

/-- Witness for `s2_removed_edges_discordant`: the run `w2Run` removes the
edge `(0, 1)`, whose endpoints end with labels `true` and `false`. -/
theorem s2_removed_edges_discordant_witness :
    s2 (fun v => v == 0) (fun _ _ _ => none) (fun k => k) 10 wG2 = some w2St ∧
      labelAt w2St.G 0 ≠ labelAt w2St.G 1 :=
  ⟨rfl, (s2_removed_edges_discordant (fun v => v == 0) (fun _ _ _ => none)
    (fun k => k) 10 wG2 w2St rfl rfl (0, 1) (by decide)).1⟩

/-! ### Claim C9 -/

/-- C9: a query step never touches the vertex list, and on every
terminating run the returned graph has exactly the input's vertex list
while its edges are exactly the input's edges minus the removed cuts. -/
theorem s2_vertex_set_preserved (oracle : Vert → Bool) (sp : SPFun)
    (pick : Nat → Nat) (fuel : Nat) (G0 : PyGraph) :
    (∀ st v, (innerStep oracle st v).G.nodes = st.G.nodes) ∧
    (∀ st, s2 oracle sp pick fuel G0 = some st →
      st.G.nodes = G0.nodes ∧
      ∀ e, e ∈ st.G.edges ↔
        (e ∈ G0.edges ∧ st.removed.any (fun c => sameEdge e c) = false)) := by
  constructor
  · intro st v
    rw [innerStep_G, nodes_removeEdges, nodes_setLabel]
  · intro st h
    exact outerLoop_pres (EdgesShrinkOnly G0) oracle sp pick G0.nodes.length
      (edgesShrinkOnly_innerStep G0 oracle) (fun s hs => hs) fuel _ st h
      ⟨rfl, by simp⟩

/-- Witness for `s2_vertex_set_preserved` at the concrete run `w2Run`. -/
theorem s2_vertex_set_preserved_witness :
    s2 (fun v => v == 0) (fun _ _ _ => none) (fun k => k) 10 wG2 = some w2St ∧
      w2St.G.nodes = wG2.nodes ∧
      ∀ e, e ∈ w2St.G.edges ↔
        (e ∈ wG2.edges ∧ w2St.removed.any (fun c => sameEdge e c) = false) :=
  ⟨rfl, (s2_vertex_set_preserved (fun v => v == 0) (fun _ _ _ => none)
    (fun k => k) 10 wG2).2 w2St rfl⟩

/-! ### Claim C10 -/

/-- C10: a query step preserves consistency of the labeled set with the
working graph's label attributes, and on every terminating run from an
unlabeled input graph the final state is consistent: each `(v, y)` of the
labeled set has attribute `y` at `v`, and every attributed vertex occurs
in the labeled set. -/
theorem s2_labels_consistent (oracle : Vert → Bool) (sp : SPFun)
    (pick : Nat → Nat) (fuel : Nat) (G0 : PyGraph) (st : S2State)
    (h0 : G0.labels = [])
    (h : s2 oracle sp pick fuel G0 = some st) :
    LabelsConsistent oracle st ∧
      (∀ s v, LabelsConsistent oracle s →
        LabelsConsistent oracle (innerStep oracle s v)) := by
  refine ⟨?_, labelsConsistent_innerStep oracle⟩
  apply outerLoop_pres (LabelsConsistent oracle) oracle sp pick G0.nodes.length
    (labelsConsistent_innerStep oracle) (fun s hs => hs) fuel _ st h
  refine ⟨?_, ?_, ?_⟩
  · intro v b hb
    rw [show labelAt G0 v = none from by simp [labelAt, h0]] at hb
    cases hb
  · intro p hp
    cases hp
  · intro v hv
    rw [show labelAt G0 v = none from by simp [labelAt, h0]] at hv
    cases hv

/-- Witness for `s2_labels_consistent` at the concrete run `w2Run`. -/
theorem s2_labels_consistent_witness :
    s2 (fun v => v == 0) (fun _ _ _ => none) (fun k => k) 10 wG2 = some w2St ∧
      LabelsConsistent (fun v => v == 0) w2St :=
  ⟨rfl, (s2_labels_consistent (fun v => v == 0) (fun _ _ _ => none)
    (fun k => k) 10 wG2 w2St rfl rfl).1⟩

/-! ### Claim C3 -/

/-- C3: with an explicit labeled set all of whose vertices exist in the
graph, cut inference returns exactly the edges whose endpoints are both
in the labeled set and carry different label attributes (so it is empty
when no adjacent discordant pair exists).  The embedding of
`find_obvious_cuts` is a pure function of `(G, L)`: the source only
constructs a subgraph view and a local `cuts` list and mutates neither
the graph nor the labeled set, so side-effect freeness holds by
construction. -/
theorem find_obvious_cuts_spec (G : PyGraph) (L : List (Vert × Bool))
    (hL : ∀ p ∈ L, p.1 ∈ G.nodes) :
    ∀ e, e ∈ find_obvious_cuts G (some L) ↔
      (e ∈ G.edges ∧ e.1 ∈ L.map Prod.fst ∧ e.2 ∈ L.map Prod.fst ∧
        labelAt G e.1 ≠ labelAt G e.2) :=
  fun e => mem_find_obvious_cuts G L e

/-- Witness for `find_obvious_cuts_spec`: on the labeled two-vertex graph
`w3G` the edge `(0, 1)` is discordant and is returned. -/
theorem find_obvious_cuts_spec_witness :
    (∀ p ∈ w3L, p.1 ∈ w3G.nodes) ∧
      ((0, 1) ∈ find_obvious_cuts w3G (some w3L) ↔
        ((0, 1) ∈ w3G.edges ∧ 0 ∈ w3L.map Prod.fst ∧ 1 ∈ w3L.map Prod.fst ∧
          labelAt w3G 0 ≠ labelAt w3G 1)) :=
  ⟨by decide, find_obvious_cuts_spec w3G w3L (by decide) (0, 1)⟩

/-! ### Claim C4 -/

theorem contains_scan_eq_contains_L (G : PyGraph) (L : List (Vert × Bool))
    (hiff : ∀ v ∈ G.nodes, ((labelAt G v).isSome ↔ v ∈ L.map Prod.fst))
    (v : Vert) (hv : v ∈ G.nodes) :
    (G.nodes.filter (fun u => (labelAt G u).isSome)).contains v =
      (L.map Prod.fst).contains v := by
  rw [Bool.eq_iff_iff, List.elem_iff, List.elem_iff, List.mem_filter]
  constructor
  · rintro ⟨_, hs⟩
    exact (hiff v hv).mp hs
  · intro hm
    exact ⟨hv, (hiff v hv).mpr hm⟩

/-- C4: when the vertices carrying a label attribute are exactly those of
the labeled set `L` (with agreeing labels), cut inference with no
labeled-set argument (attribute scan) and with the explicit `L` return
the same edge list. -/
theorem find_obvious_cuts_scan_equiv (G : PyGraph) (L : List (Vert × Bool))
    (hwf : ∀ e ∈ G.edges, e.1 ∈ G.nodes ∧ e.2 ∈ G.nodes)
    (hiff : ∀ v ∈ G.nodes, ((labelAt G v).isSome ↔ v ∈ L.map Prod.fst))
    (hagree : ∀ p ∈ L, labelAt G p.1 = some p.2) :
    find_obvious_cuts G none = find_obvious_cuts G (some L) := by
  show (G.edges.filter (fun e =>
      (G.nodes.filter (fun v => (labelAt G v).isSome)).contains e.1 &&
        (G.nodes.filter (fun v => (labelAt G v).isSome)).contains e.2)).filter
      (fun e => labelAt G e.1 != labelAt G e.2) =
    (G.edges.filter (fun e =>
      (L.map Prod.fst).contains e.1 && (L.map Prod.fst).contains e.2)).filter
      (fun e => labelAt G e.1 != labelAt G e.2)
  congr 1
  apply List.filter_congr
  intro e he
  obtain ⟨h1, h2⟩ := hwf e he
  rw [contains_scan_eq_contains_L G L hiff e.1 h1,
    contains_scan_eq_contains_L G L hiff e.2 h2]

/-- Witness for `find_obvious_cuts_scan_equiv` on the labeled graph `w3G`
whose attributes match `w3L` exactly. -/
theorem find_obvious_cuts_scan_equiv_witness :
    find_obvious_cuts w3G none = find_obvious_cuts w3G (some w3L) :=
  find_obvious_cuts_scan_equiv w3G w3L (by decide)
    (by decide)
    (by decide)

/-! ### Claim C5 -/

/-- C5: the shortest-path search returns "no candidate" exactly when every
discordant pair it enumerates has the collaborator signal "no path" (in
particular when there is no discordant pair at all); a no-path signal is
a skip, never an abort — the embedded `find_ssp` is total — and a "no
candidate" result propagates through midpoint selection. -/
theorem find_ssp_no_path_skip (G : PyGraph) (L : List (Vert × Bool)) (sp : SPFun) :
    (find_ssp G L sp = none ↔
      ∀ uv ∈ combinations2 (L.map Prod.fst),
        labelAt G uv.1 ≠ labelAt G uv.2 → sp G uv.1 uv.2 = none) ∧
    (find_ssp G L sp = none → find_mssp G L sp = none) := by
  constructor
  · have hnil : find_ssp G L sp = none ↔ sspPaths G L sp = [] := by
      unfold find_ssp
      rcases sspPaths G L sp with _ | ⟨p, ps⟩ <;> simp
    rw [hnil, sspPaths, List.filterMap_eq_nil_iff]
    constructor
    · intro h uv huv hne
      have huse := h uv huv
      rw [if_pos (bne_iff_ne.mpr hne)] at huse
      exact huse
    · intro h uv huv
      by_cases hne : labelAt G uv.1 ≠ labelAt G uv.2
      · rw [if_pos (bne_iff_ne.mpr hne)]
        exact h uv huv hne
      · rw [if_neg (fun hb => hne (bne_iff_ne.mp hb))]
  · intro h
    unfold find_mssp
    rw [h]

/-- Witness for `find_ssp_no_path_skip`: on `w3G` the single discordant
pair signals "no path", so the search yields "no candidate". -/
theorem find_ssp_no_path_skip_witness :
    find_ssp w3G w3L spNone = none :=
  (find_ssp_no_path_skip w3G w3L spNone).1.mpr (by decide)

/-! ### Claim C6 -/

/-- C6: when the search finds a winning path `p` (of length at least 2;
both endpoints are labeled vertices), midpoint selection returns exactly
the vertex at zero-based index `p.length / 2`, which always exists; and
it returns "no candidate" when the search found no path. -/
theorem find_mssp_midpoint (G : PyGraph) (L : List (Vert × Bool)) (sp : SPFun) :
    (∀ p, find_ssp G L sp = some p → 2 ≤ p.length →
      find_mssp G L sp = p.get? (p.length / 2) ∧ (p.get? (p.length / 2)).isSome) ∧
    (find_ssp G L sp = none → find_mssp G L sp = none) := by
  constructor
  · intro p hp hlen
    constructor
    · unfold find_mssp
      rw [hp]
    · have hlt : p.length / 2 < p.length := Nat.div_lt_self (by omega) (by omega)
      rw [List.get?_eq_get hlt]
      rfl
  · intro h
    unfold find_mssp
    rw [h]

/-- Witness for `find_mssp_midpoint`: for the five-vertex winning path
`[10, 11, 12, 13, 14]` midpoint selection returns index `⌊5/2⌋ = 2`,
i.e. vertex `12`. -/
theorem find_mssp_midpoint_witness :
    find_mssp w6G w3L sp5 = [10, 11, 12, 13, 14].get? ([10, 11, 12, 13, 14].length / 2) ∧
      [10, 11, 12, 13, 14].get? ([10, 11, 12, 13, 14].length / 2) = some 12 :=
  ⟨((find_mssp_midpoint w6G w3L sp5).1 [10, 11, 12, 13, 14] rfl (by decide)).1, rfl⟩

/-! ### Claim C7 -/

theorem pyMinLen_cons (a q : List Vert) (ps : List (List Vert)) :
    pyMinLen a (q :: ps) = pyMinLen (if q.length < a.length then q else a) ps := rfl

theorem pyMinLen_le_head : ∀ (ps : List (List Vert)) (a : List Vert),
    (pyMinLen a ps).length ≤ a.length := by
  intro ps
  induction ps with
  | nil => intro a; exact le_refl _
  | cons q ps ih =>
    intro a
    rw [pyMinLen_cons]
    by_cases h : q.length < a.length
    · rw [if_pos h]
      exact le_trans (ih q) (le_of_lt h)
    · rw [if_neg h]
      exact ih a

/-- Python's `min` with `key=len` picks the first element of minimal
length: the scanned list splits into a strictly-longer prefix, the
winner, and a no-shorter suffix. -/
theorem pyMinLen_first_min : ∀ (ps : List (List Vert)) (a : List Vert),
    ∃ l1 l2, a :: ps = l1 ++ pyMinLen a ps :: l2 ∧
      (∀ q ∈ l1, (pyMinLen a ps).length < q.length) ∧
      (∀ q ∈ l2, (pyMinLen a ps).length ≤ q.length) := by
  intro ps
  induction ps with
  | nil => exact fun a => ⟨[], [], rfl, by simp, by simp⟩
  | cons q ps ih =>
    intro a
    rw [pyMinLen_cons]
    by_cases h : q.length < a.length
    · rw [if_pos h]
      obtain ⟨l1, l2, hdec, hl1, hl2⟩ := ih q
      refine ⟨a :: l1, l2, ?_, ?_, hl2⟩
      · rw [List.cons_append, ← hdec]
      · intro x hx
        rcases List.mem_cons.mp hx with hx | hx
        · rw [hx]
          exact lt_of_le_of_lt (pyMinLen_le_head ps q) h
        · exact hl1 x hx
    · rw [if_neg h]
      obtain ⟨l1, l2, hdec, hl1, hl2⟩ := ih a
      cases l1 with
      | nil =>
        injection hdec with ha hps
        refine ⟨[], q :: l2, ?_, by simp, ?_⟩
        · rw [List.nil_append, ← ha, hps]
        · intro x hx
          rcases List.mem_cons.mp hx with hx | hx
          · rw [hx, ← ha]
            omega
          · exact hl2 x hx
      | cons b l1' =>
        rw [List.cons_append] at hdec
        injection hdec with hab hps
        have hma : (pyMinLen a ps).length < a.length := by
          have := hl1 b (List.mem_cons.mpr (Or.inl rfl))
          rw [← hab] at this
          exact this
        refine ⟨a :: q :: l1', l2, ?_, ?_, hl2⟩
        · show a :: q :: ps = a :: q :: (l1' ++ pyMinLen a ps :: l2)
          rw [← hps]
        · intro x hx
          rcases List.mem_cons.mp hx with hx | hx
          · rw [hx]
            exact hma
          · rcases List.mem_cons.mp hx with hx | hx
            · rw [hx]
              omega
            · exact hl1 x (List.mem_cons.mpr (Or.inr hx))

/-- The enumeration `itertools.combinations(l, 2)` yields exactly the position-ordered
pairs of `l`. -/
theorem mem_combinations2 : ∀ (l : List Vert) (u v : Vert),
    (u, v) ∈ combinations2 l ↔
      ∃ i j, i < j ∧ l.get? i = some u ∧ l.get? j = some v := by
  intro l
  induction l with
  | nil =>
    intro u v
    simp [combinations2]
  | cons x xs ih =>
    intro u v
    simp only [combinations2, List.mem_append, List.mem_map]
    constructor
    · rintro (⟨y, hy, hxy⟩ | h)
      · injection hxy with h1 h2
        obtain ⟨j, hj⟩ := List.mem_iff_get?.mp hy
        exact ⟨0, j + 1, Nat.succ_pos j, by rw [← h1]; rfl, by rw [h2] at hj; exact hj⟩
      · obtain ⟨i, j, hij, hi, hj⟩ := (ih u v).mp h
        exact ⟨i + 1, j + 1, by omega, hi, hj⟩
    · rintro ⟨i, j, hij, hi, hj⟩
      cases i with
      | zero =>
        left
        cases j with
        | zero => omega
        | succ j' =>
          refine ⟨v, List.get?_mem hj, ?_⟩
          injection hi with hi
          rw [hi]
      | succ i' =>
        right
        cases j with
        | zero => omega
        | succ j' => exact (ih u v).mpr ⟨i', j', by omega, hi, hj⟩

/-- C7: the shortest-path search enumerates exactly the position-ordered
pairs of labeled-set vertices, keeps exactly the discordant pairs for
which the collaborator yields a path, and when it returns a path that
path is the first one of minimal vertex count in enumeration order:
everything enumerated before it is strictly longer and nothing after it
is shorter. -/
theorem find_ssp_min_first (G : PyGraph) (L : List (Vert × Bool)) (sp : SPFun) :
    (∀ p, p ∈ sspPaths G L sp ↔
      ∃ uv, uv ∈ combinations2 (L.map Prod.fst) ∧
        labelAt G uv.1 ≠ labelAt G uv.2 ∧ sp G uv.1 uv.2 = some p) ∧
    (∀ u v, (u, v) ∈ combinations2 (L.map Prod.fst) ↔
      ∃ i j, i < j ∧ (L.map Prod.fst).get? i = some u ∧
        (L.map Prod.fst).get? j = some v) ∧
    (∀ p, find_ssp G L sp = some p →
      ∃ l1 l2, sspPaths G L sp = l1 ++ p :: l2 ∧
        (∀ q ∈ l1, p.length < q.length) ∧ (∀ q ∈ l2, p.length ≤ q.length)) := by
  refine ⟨?_, fun u v => mem_combinations2 (L.map Prod.fst) u v, ?_⟩
  · intro p
    rw [sspPaths, List.mem_filterMap]
    constructor
    · rintro ⟨uv, huv, hf⟩
      by_cases hne : labelAt G uv.1 ≠ labelAt G uv.2
      · rw [if_pos (bne_iff_ne.mpr hne)] at hf
        exact ⟨uv, huv, hne, hf⟩
      · rw [if_neg (fun hb => hne (bne_iff_ne.mp hb))] at hf
        cases hf
    · rintro ⟨uv, huv, hne, hf⟩
      refine ⟨uv, huv, ?_⟩
      rw [if_pos (bne_iff_ne.mpr hne)]
      exact hf
  · intro p hp
    unfold find_ssp at hp
    rcases hps : sspPaths G L sp with _ | ⟨p0, ps⟩ <;> rw [hps] at hp
    · cases hp
    · injection hp with hp
      obtain ⟨l1, l2, hdec, h1, h2⟩ := pyMinLen_first_min ps p0
      rw [hp] at hdec h1 h2
      exact ⟨l1, l2, hdec, h1, h2⟩

/-- Witness for `find_ssp_min_first`: with pair enumeration
`(0,1), (0,2), (1,2)` over `w7L`, the pair `(0,1)` yields a three-vertex
path and `(0,2)` a two-vertex path; the winner is the strictly shorter
`[0, 2]`, preceded by the longer path only. -/
theorem find_ssp_min_first_witness :
    find_ssp w7G w7L sp7 = some [0, 2] ∧
      ∃ l1 l2, sspPaths w7G w7L sp7 = l1 ++ [0, 2] :: l2 ∧
        (∀ q ∈ l1, ([0, 2] : List Vert).length < q.length) ∧
        (∀ q ∈ l2, ([0, 2] : List Vert).length ≤ q.length) :=
  ⟨rfl, (find_ssp_min_first w7G w7L sp7).2.2 [0, 2] rfl⟩

/-! ### Claim C8 -/

theorem getD_set_ne (l : List PyGraph) (i j : Nat) (a d : PyGraph) (h : i ≠ j) :
    (l.set i a).getD j d = l.getD j d := by
  rw [List.getD_eq_getElem?_getD, List.getD_eq_getElem?_getD, List.getElem?_set_ne h]

theorem innerStepStore_frame (oracle : Vert → Bool) (store : List PyGraph)
    (wref : Nat) (L : List (Vert × Bool)) (vert : Vert) (j : Nat) (d : PyGraph)
    (hj : j ≠ wref) :
    ((innerStepStore oracle store wref L vert).1).getD j d = store.getD j d := by
  show ((store.set wref _).set wref _).getD j d = store.getD j d
  rw [getD_set_ne _ _ _ _ _ (Ne.symm hj), getD_set_ne _ _ _ _ _ (Ne.symm hj)]

theorem innerLoopStore_frame (oracle : Vert → Bool) (sp : SPFun) :
    ∀ fuel store wref L vert store' L' j d, j ≠ wref →
      innerLoopStore oracle sp fuel store wref L vert = some (store', L') →
      store'.getD j d = store.getD j d := by
  intro fuel
  induction fuel with
  | zero =>
    intro store wref L vert store' L' j d hj h
    simp [innerLoopStore] at h
  | succ k ih =>
    intro store wref L vert store' L' j d hj h
    simp only [innerLoopStore] at h
    rcases hm : find_mssp
        ((innerStepStore oracle store wref L vert).1.getD wref ⟨[], [], []⟩)
        (innerStepStore oracle store wref L vert).2 sp with _ | v <;> rw [hm] at h
    · cases h
      exact innerStepStore_frame oracle store wref L vert j d hj
    · rw [ih _ _ _ _ _ _ _ _ hj h]
      exact innerStepStore_frame oracle store wref L vert j d hj

theorem outerLoopStore_frame (oracle : Vert → Bool) (sp : SPFun) (pick : Nat → Nat)
    (n : Nat) :
    ∀ fuel store wref L seeds store' L' j d, j ≠ wref →
      outerLoopStore oracle sp pick n fuel store wref L seeds = some (store', L') →
      store'.getD j d = store.getD j d := by
  intro fuel
  induction fuel with
  | zero =>
    intro store wref L seeds store' L' j d hj h
    simp [outerLoopStore] at h
  | succ k ih =>
    intro store wref L seeds store' L' j d hj h
    simp only [outerLoopStore] at h
    by_cases hn : L.length = n
    · rw [if_pos hn] at h
      cases h
      rfl
    · rw [if_neg hn] at h
      rcases hi : innerLoopStore oracle sp k store wref L
          (((store.getD wref ⟨[], [], []⟩).nodes).getD
            (pick seeds % (store.getD wref ⟨[], [], []⟩).nodes.length) 0) with
        _ | s <;> rw [hi] at h
      · cases h
      · obtain ⟨store1, L1⟩ := s
        rw [ih _ _ _ _ _ _ _ _ hj h]
        exact innerLoopStore_frame oracle sp k _ _ _ _ _ _ _ _ hj hi

/-- C8: `s2` never mutates the caller-owned input graph.  At the store
level, line 32 (`G = G.copy()`) allocates the working copy as a fresh
object and every later mutation writes only that object, so after the run
the store still holds the original graph at the caller's reference. -/
theorem s2_input_graph_unchanged (oracle : Vert → Bool) (sp : SPFun)
    (pick : Nat → Nat) (fuel : Nat) (store : List PyGraph) (gref : Nat)
    (d : PyGraph) (hg : gref < store.length) :
    ((s2Store oracle sp pick fuel store gref).1).getD gref d = store.getD gref d := by
  have hne : gref ≠ store.length := Nat.ne_of_lt hg
  have happ : (store ++ [store.getD gref ⟨[], [], []⟩]).getD gref d = store.getD gref d :=
    List.getD_append store _ d gref hg
  unfold s2Store
  rcases ho : outerLoopStore oracle sp pick
      (store.getD gref ⟨[], [], []⟩).nodes.length fuel
      (store ++ [store.getD gref ⟨[], [], []⟩]) store.length [] 0 with _ | ⟨store', L'⟩
  · exact happ
  · show store'.getD gref d = store.getD gref d
    rw [outerLoopStore_frame oracle sp pick _ fuel _ _ _ _ _ _ _ _ hne ho]
    exact happ

/-- Witness for `s2_input_graph_unchanged`: running `s2` over a one-graph
store leaves the caller's graph at index 0 untouched (the run labels both
vertices of the working copy and removes its edge, see `w2Run`). -/
theorem s2_input_graph_unchanged_witness :
    ((s2Store (fun v => v == 0) (fun _ _ _ => none) (fun k => k) 10 [wG2] 0).1).getD
        0 ⟨[], [], []⟩ = [wG2].getD 0 ⟨[], [], []⟩ :=
  s2_input_graph_unchanged (fun v => v == 0) (fun _ _ _ => none) (fun k => k) 10
    [wG2] 0 ⟨[], [], []⟩ (by decide)

end S2
